import Mathlib

/-!
Verification development for the credential redaction / restoration engine of a
record-replay test harness (`nock.utils`-style recording editors).

Strings are modelled as `List Char` (JS strings on the code's inputs).  Machine
evaluation matters, so every function is structural or fuel-based (fuel bounds
are computed from input sizes and are generous; comments justify adequacy).
-/

namespace RecEng

/-- JS `String.prototype.includes`: `containsStr hay needle` is true iff
`needle` occurs contiguously in `hay`.  `containsStr hay [] = true`, matching
JS `"s".includes("")`. -/
def containsStr : List Char → List Char → Bool
  | s, pat =>
    List.isPrefixOf pat s ||
      match s with
      | [] => false
      | _ :: t => containsStr t pat

/-- Join a list of strings with a separator (used for JS `Array.prototype.toString`,
which joins with `","`, and for query-string serialization). -/
def joinSep (sep : List Char) (xs : List (List Char)) : List Char :=
  List.intercalate sep xs

/-- The comma separator used by JS `Array.prototype.toString`. -/
def commaSep : List Char := ",".data

/- ### A fragment of ECMAScript regular expressions

`replaceCredential` in the source does
`payload.replace(new RegExp(credential, 'g'), placeholder)` with the raw,
unescaped credential.  We embed the fragment of ECMAScript regex syntax
needed to settle the claims: literal characters, `.` (any char except line
terminators) and the `+` quantifier on a single-character atom.  Credentials
using other metacharacters (`* ? ( ) [ ] \ | ^ $` and braces) are outside the
modelled fragment: `rxCompile` rejects them and `replaceCredential` then
returns the payload unchanged (a documented modelling boundary; no claim is
settled on such credentials). -/

inductive RAtom where
  | lit (c : Char)
  | dot
deriving DecidableEq

inductive Rx where
  | once (a : RAtom)
  | plus (a : RAtom)
deriving DecidableEq

/-- ECMAScript metacharacters that the modelled regex fragment does not cover
('+' is handled by the compiler's lookahead, '.' is supported). -/
def rxUnsupported (c : Char) : Bool :=
  c = '*' || c = '?' || c = '(' || c = ')' || c = '[' || c = ']' ||
  c = '\\' || c = '|' || c = '^' || c = '$' ||
  c = Char.ofNat 123 || c = Char.ofNat 125

/-- Compile a credential string to the modelled regex fragment, as
`new RegExp(credential)` would interpret it: `.` becomes the any-char atom, a
`+` directly after an atom makes it one-or-more (a dangling or doubled `+` is a
`SyntaxError`, modelled by `none`), every other supported character is a
literal. -/
def rxCompile : List Char → Option (List Rx)
  | [] => some []
  | c :: '+' :: rest =>
    if rxUnsupported c then none
    else if c = '+' then none
    else
      (rxCompile rest).map
        (fun rs => Rx.plus (if c = '.' then RAtom.dot else RAtom.lit c) :: rs)
  | c :: rest =>
    if rxUnsupported c then none
    else if c = '+' then none
    else
      (rxCompile rest).map
        (fun rs => Rx.once (if c = '.' then RAtom.dot else RAtom.lit c) :: rs)

/-- ECMAScript atom matching: `.` matches any character except the four line
terminators. -/
def atomMatch (a : RAtom) (c : Char) : Bool :=
  match a with
  | .lit c' => c = c'
  | .dot =>
    !(c = Char.ofNat 10 || c = Char.ofNat 13 ||
      c = Char.ofNat 0x2028 || c = Char.ofNat 0x2029)

/-- Length of the maximal run of characters at the front of `s` matched by
atom `a` (the greedy first try of `a+`). -/
def countRun (a : RAtom) : List Char → Nat
  | [] => 0
  | c :: r => if atomMatch a c then countRun a r + 1 else 0

mutual

/-- Fuel-indexed matcher: `rxMatchPrefixF fuel rxs s` returns the number of
characters of `s` consumed by a match of `rxs` at the front of `s`, using the
ECMAScript strategy (greedy `+` with backtracking, first success wins).
`rxTryPlusF` backtracks the `+` count from the greedy maximum down to 1.
Each recursive call spends one unit of fuel; the wrappers below supply
`(rxs.length + 1) * (s.length + 2)` units, which bounds the call depth since
every call either shortens the pattern or decreases the backtracking counter
(itself at most `s.length + 1`). -/
def rxMatchPrefixF : Nat → List Rx → List Char → Option Nat
  | 0, _, _ => none
  | _ + 1, [], _ => some 0
  | _ + 1, .once _ :: _, [] => none
  | fuel + 1, .once a :: rs, c :: s =>
    if atomMatch a c then (rxMatchPrefixF fuel rs s).map (· + 1) else none
  | fuel + 1, .plus a :: rs, s => rxTryPlusF fuel rs s (countRun a s)

/-- See `rxMatchPrefixF`. -/
def rxTryPlusF : Nat → List Rx → List Char → Nat → Option Nat
  | 0, _, _, _ => none
  | _ + 1, _, _, 0 => none
  | fuel + 1, rs, s, k + 1 =>
    match rxMatchPrefixF fuel rs (s.drop (k + 1)) with
    | some n => some (k + 1 + n)
    | none => rxTryPlusF fuel rs s k

end

/-- Leftmost match of `rxs` at the front of `s` (consumed length). -/
def rxMatchPrefix (rxs : List Rx) (s : List Char) : Option Nat :=
  rxMatchPrefixF ((rxs.length + 1) * (s.length + 2)) rxs s

/-- Fuel-indexed global regex replacement, the semantics of
`payload.replace(re, placeholder)` with the `g` flag for patterns that cannot
match the empty string (every compiled credential atom consumes at least one
character): scan left to right, replace each leftmost match, continue after
it.  Fuel `s.length + 1` is adequate: every step consumes at least one
character of `s`. -/
def rxReplaceAllF : Nat → List Rx → List Char → List Char → List Char
  | 0, _, _, s => s
  | fuel + 1, rxs, rep, s =>
    match rxMatchPrefix rxs s with
    | some (n + 1) => rep ++ rxReplaceAllF fuel rxs rep (s.drop (n + 1))
    | some 0 => s
    | none =>
      match s with
      | [] => []
      | c :: s' => c :: rxReplaceAllF fuel rxs rep s'

/-- Global regex replacement (see `rxReplaceAllF`). -/
def rxReplaceAll (rxs : List Rx) (rep : List Char) (s : List Char) : List Char :=
  rxReplaceAllF (s.length + 1) rxs rep s

/-- Embeds `replaceCredential` (src/unnamed/part_001:33-51): for a non-empty
credential, globally replace matches of `new RegExp(credential, 'g')` - the
credential is NOT escaped, so it is interpreted as a pattern - by the
placeholder; an empty credential returns the payload unchanged. -/
def replaceCredential (payload credential placeholder : List Char) : List Char :=
  if credential = [] then payload
  else
    match rxCompile credential with
    | some rxs => rxReplaceAll rxs placeholder payload
    | none => payload

/-- Literal (non-regex) global substring replacement, leftmost-first and
non-overlapping; used by the spec-modelled restoration direction.  Fuel
`s.length + 1` is adequate: every step consumes at least one character. -/
def replaceAllF : Nat → List Char → List Char → List Char → List Char
  | 0, _, _, s => s
  | fuel + 1, pat, rep, s =>
    match s with
    | [] => []
    | c :: s' =>
      if pat ≠ [] ∧ List.isPrefixOf pat s then
        rep ++ replaceAllF fuel pat rep (s.drop pat.length)
      else
        c :: replaceAllF fuel pat rep s'

/-- Literal global substring replacement (see `replaceAllF`). -/
def replaceAll (pat rep s : List Char) : List Char :=
  replaceAllF (s.length + 1) pat rep s

/- ### JSON values

`body` and `response` are loosely typed JSON payloads; the body and response
editors serialize them with `JSON.stringify`, substring-replace on the text and
re-parse with `JSON.parse`.  Numbers are modelled as integers (recorded
payloads in the claims are integral; float formatting is outside the modelled
fragment).  String escaping covers quote, backslash and the common control
escapes; `\u` escapes and non-ASCII formatting are outside the fragment. -/

inductive Json where
  | null
  | bool (b : Bool)
  | num (n : Int)
  | str (s : List Char)
  | arr (xs : List Json)
  | obj (fs : List (List Char × Json))

/-- Decimal digits of a natural number (fuel-based; fuel `n + 1` suffices since
`n / 10 < n` for `n ≥ 1`). -/
def natToChars : Nat → Nat → List Char
  | 0, n => [Char.ofNat (48 + n % 10)]
  | fuel + 1, n =>
    if n < 10 then [Char.ofNat (48 + n)]
    else natToChars fuel (n / 10) ++ [Char.ofNat (48 + n % 10)]

/-- Decimal representation of an integer, as `JSON.stringify` prints integral
numbers. -/
def intToChars (i : Int) : List Char :=
  if i < 0 then '-' :: natToChars i.natAbs i.natAbs
  else natToChars i.natAbs i.natAbs

/-- `JSON.stringify` escaping for one character inside a string literal. -/
def jsonEscapeChar (c : Char) : List Char :=
  if c = '"' then ['\\', '"']
  else if c = '\\' then ['\\', '\\']
  else if c = Char.ofNat 10 then ['\\', 'n']
  else if c = Char.ofNat 13 then ['\\', 'r']
  else if c = Char.ofNat 9 then ['\\', 't']
  else [c]

mutual

/-- `JSON.stringify` on the modelled JSON values (no spacing, like the
argument-free JS call). -/
def jsonStringify : Json → List Char
  | .null => "null".data
  | .bool true => "true".data
  | .bool false => "false".data
  | .num i => intToChars i
  | .str s => '"' :: (s.map jsonEscapeChar).flatten ++ ['"']
  | .arr xs => '[' :: jsonStringifyItems xs ++ [']']
  | .obj fs => Char.ofNat 123 :: jsonStringifyFields fs ++ [Char.ofNat 125]

/-- Comma-separated stringification of array items. -/
def jsonStringifyItems : List Json → List Char
  | [] => []
  | [x] => jsonStringify x
  | x :: y :: t => jsonStringify x ++ ',' :: jsonStringifyItems (y :: t)

/-- Comma-separated stringification of object fields. -/
def jsonStringifyFields : List (List Char × Json) → List Char
  | [] => []
  | [(k, v)] => '"' :: (k.map jsonEscapeChar).flatten ++ '"' :: ':' :: jsonStringify v
  | (k, v) :: f :: t =>
    '"' :: (k.map jsonEscapeChar).flatten ++ '"' :: ':' :: jsonStringify v
      ++ ',' :: jsonStringifyFields (f :: t)

end

/-- JSON whitespace accepted by `JSON.parse`. -/
def jsonWs (c : Char) : Bool :=
  c = ' ' || c = Char.ofNat 9 || c = Char.ofNat 10 || c = Char.ofNat 13

/-- Hex digit value of a character, if any. -/
def hexVal (c : Char) : Option Nat :=
  if '0' ≤ c ∧ c ≤ '9' then some (c.toNat - 48)
  else if 'a' ≤ c ∧ c ≤ 'f' then some (c.toNat - 97 + 10)
  else if 'A' ≤ c ∧ c ≤ 'F' then some (c.toNat - 65 + 10)
  else none

/-- Digit test. -/
def isDigit (c : Char) : Bool := '0' ≤ c && c ≤ '9'

/-- Parse a run of decimal digits (structural). -/
def parseDigits : List Char → Nat → (Nat × List Char)
  | c :: r, acc =>
    if isDigit c then parseDigits r (acc * 10 + (c.toNat - 48)) else (acc, c :: r)
  | [], acc => (acc, [])

/-- Parse the body of a JSON string literal up to the closing quote
(structural; the supported escapes mirror `jsonEscapeChar` plus `\/`). -/
def jsonParseStr : List Char → Option (List Char × List Char)
  | [] => none
  | '"' :: r => some ([], r)
  | '\\' :: e :: r =>
    (match e with
      | '"' => some '"'
      | '\\' => some '\\'
      | '/' => some '/'
      | 'n' => some (Char.ofNat 10)
      | 'r' => some (Char.ofNat 13)
      | 't' => some (Char.ofNat 9)
      | _ => none).bind
      (fun c => (jsonParseStr r).map (fun (p : List Char × List Char) => (c :: p.1, p.2)))
  | c :: r => (jsonParseStr r).map (fun (p : List Char × List Char) => (c :: p.1, p.2))

mutual

/-- Fuel-indexed recursive-descent `JSON.parse` for the modelled fragment
(null, booleans, integral numbers, strings, arrays, objects).  Every
recursive call spends one unit of fuel; the wrapper supplies `s.length + 1`,
adequate because every descent consumes at least one character. -/
def jsonParseVal : Nat → List Char → Option (Json × List Char)
  | 0, _ => none
  | fuel + 1, s =>
    match s.dropWhile jsonWs with
    | 'n' :: 'u' :: 'l' :: 'l' :: r => some (.null, r)
    | 't' :: 'r' :: 'u' :: 'e' :: r => some (.bool true, r)
    | 'f' :: 'a' :: 'l' :: 's' :: 'e' :: r => some (.bool false, r)
    | '"' :: r => (jsonParseStr r).map (fun p => (.str p.1, p.2))
    | '[' :: r =>
      (match r.dropWhile jsonWs with
        | ']' :: r' => some (.arr [], r')
        | _ => (jsonParseItems fuel r).map (fun p => (.arr p.1, p.2)))
    | c :: r =>
      if c = Char.ofNat 123 then
        match r.dropWhile jsonWs with
        | c' :: r' =>
          if c' = Char.ofNat 125 then some (.obj [], r')
          else (jsonParseFields fuel r).map (fun p => (.obj p.1, p.2))
        | [] => none
      else if c = '-' then
        match r with
        | d :: _ =>
          if isDigit d then
            match parseDigits r 0 with
            | (n, r') => some (.num (-(n : Int)), r')
          else none
        | [] => none
      else if isDigit c then
        match parseDigits (c :: r) 0 with
        | (n, r') => some (.num (n : Int), r')
      else none
    | [] => none

/-- Array items: value (`,` value)* `]`. -/
def jsonParseItems : Nat → List Char → Option (List Json × List Char)
  | 0, _ => none
  | fuel + 1, s =>
    (jsonParseVal fuel s).bind
      (fun p =>
        match p.2.dropWhile jsonWs with
        | ',' :: r => (jsonParseItems fuel r).map (fun q => (p.1 :: q.1, q.2))
        | ']' :: r => some ([p.1], r)
        | _ => none)

/-- Object fields: string `:` value (`,` string `:` value)* and closing brace. -/
def jsonParseFields : Nat → List Char → Option (List (List Char × Json) × List Char)
  | 0, _ => none
  | fuel + 1, s =>
    match s.dropWhile jsonWs with
    | '"' :: r =>
      (jsonParseStr r).bind
        (fun kp =>
          match kp.2.dropWhile jsonWs with
          | ':' :: r' =>
            (jsonParseVal fuel r').bind
              (fun p =>
                match p.2.dropWhile jsonWs with
                | ',' :: r'' =>
                  (jsonParseFields fuel r'').map
                    (fun q => ((kp.1, p.1) :: q.1, q.2))
                | c :: r'' =>
                  if c = Char.ofNat 125 then some ([(kp.1, p.1)], r'')
                  else none
                | [] => none)
          | _ => none)
    | _ => none

end

/-- `JSON.parse`: parse one value and require only whitespace after it. -/
def jsonParse (s : List Char) : Option Json :=
  (jsonParseVal (s.length + 1) s).bind
    (fun p => if p.2.dropWhile jsonWs = [] then some p.1 else none)

/- ### The recording exchange -/

/-- A request-header value as nock records it: a string or an array of
strings. -/
inductive HVal where
  | str (s : List Char)
  | arr (xs : List (List Char))
deriving DecidableEq

/-- JS `value.toString()`: identity on strings, `Array.prototype.toString`
joins with `","` (no space). -/
def hvalToString : HVal → List Char
  | .str s => s
  | .arr xs => joinSep commaSep xs

/-- `reqheaders` as an association list in insertion order (JS object
property order); JS objects have no duplicate keys, which shows up as a
`keysNodup` hypothesis where it matters. -/
abbrev Headers := List (List Char × HVal)

/-- The keys of a header map are pairwise distinct (a JS-object invariant). -/
def keysNodup (hs : Headers) : Prop :=
  (List.map Prod.fst hs).Nodup

instance : DecidablePred keysNodup := fun hs =>
  inferInstanceAs (Decidable (List.map Prod.fst hs).Nodup)

/-- Embeds nock's `RecordingDefinition` (the fields the redaction engine
reads or writes; `method` and `status` are never touched by any editor and
are omitted).  `none` models a JS `undefined` field. -/
structure RecordingDefinition where
  scope : List Char
  path : List Char
  reqheaders : Option Headers
  rawHeaders : Option (List (List Char))
  body : Option Json
  response : Option Json

/-- Errors thrown by the redaction pass: `UnexpectedError` from the source's
error module, and a JS `SyntaxError` escaping from `JSON.parse`. -/
inductive RedactError where
  | unexpected (msg : List Char)
  | jsonSyntaxErr
deriving DecidableEq

/-- JS truthiness of a JSON value (`""`, `0`, `false`, `null` are falsy). -/
def jsTruthyJson : Json → Bool
  | .null => false
  | .bool b => b
  | .num n => n ≠ 0
  | .str s => s ≠ []
  | .arr _ => true
  | .obj _ => true

/- ### WHATWG URL, restricted to what `new URL(baseUrlOrigin + path)` does to
the recorded `path` string

The query and path editors parse `origin + path`, possibly edit pathname or
search parameters, and reassemble `pathname + search + hash`.  The origin
never reaches the output, so the model parses the `path` string alone
(assumed, as in every recording, to start with `/`; the base URL is assumed
to be a well-formed origin, whose parse cannot fail).  Modelled fragment of
the URL Standard: the first `#` starts the fragment, a `?` before it starts
the query; the path percent-encode set covers controls, space, `"`, `<`,
`>`, backtick, braces and DEL; dot-segment resolution, backslash
normalization, `%`-validation and non-ASCII UTF-8 expansion are outside the
fragment (no claim exercises them). -/

/-- Uppercase hex digit. -/
def hexDigitChar (n : Nat) : Char :=
  if n < 10 then Char.ofNat (48 + n) else Char.ofNat (65 + n - 10)

/-- `%XX` percent-encoding of one (ASCII) character. -/
def pctEncodeChar (c : Char) : List Char :=
  ['%', hexDigitChar (c.toNat / 16 % 16), hexDigitChar (c.toNat % 16)]

/-- Membership of the path percent-encode set (modelled fragment). -/
def inPathEncodeSet (c : Char) : Bool :=
  c.toNat < 32 || c = ' ' || c = '"' || c = '<' || c = '>' ||
  c = Char.ofNat 96 || c = Char.ofNat 123 || c = Char.ofNat 125 ||
  c.toNat = 127

/-- Percent-encode a pathname as the URL path parser does (also applied when
assigning `url.pathname`). -/
def pathEncode (s : List Char) : List Char :=
  (s.map (fun c => if inPathEncodeSet c then pctEncodeChar c else [c])).flatten

/-- Split at the first occurrence of a marker character: returns the part
before it and, when the marker occurs, the part after it. -/
def splitFirst (mark : Char) : List Char → List Char × Option (List Char)
  | [] => ([], none)
  | c :: r =>
    if c = mark then ([], some r)
    else
      match splitFirst mark r with
      | (pre, post) => (c :: pre, post)

/-- Split a string at every occurrence of a separator. -/
def splitAll (sep : Char) : List Char → List (List Char)
  | [] => [[]]
  | c :: rest =>
    match splitAll sep rest with
    | r =>
      if c = sep then [] :: r
      else
        match r with
        | [] => [[c]]
        | h :: t => (c :: h) :: t

/-- `application/x-www-form-urlencoded` decoding of one token: `+` is a
space, a valid `%XX` is the encoded byte (ASCII fragment), everything else
is itself (a stray `%` stays literal, as in the URL Standard). -/
def formDecodeStr : List Char → List Char
  | [] => []
  | '+' :: r => ' ' :: formDecodeStr r
  | '%' :: h1 :: h2 :: r =>
    match hexVal h1, hexVal h2 with
    | some a, some b => Char.ofNat (16 * a + b) :: formDecodeStr r
    | _, _ => '%' :: formDecodeStr (h1 :: h2 :: r)
  | c :: r => c :: formDecodeStr r

/-- Characters serialized verbatim by the form-urlencoded serializer. -/
def formSafeChar (c : Char) : Bool :=
  ('0' ≤ c && c ≤ '9') || ('a' ≤ c && c ≤ 'z') || ('A' ≤ c && c ≤ 'Z') ||
  c = '*' || c = '-' || c = '.' || c = '_'

/-- `application/x-www-form-urlencoded` encoding of one token (space becomes
`+`). -/
def formEncodeStr (s : List Char) : List Char :=
  (s.map (fun c =>
    if formSafeChar c then [c]
    else if c = ' ' then ['+']
    else pctEncodeChar c)).flatten

/-- Parse a raw query string into decoded name/value pairs, as
`URLSearchParams` iteration yields them (empty `&`-pieces are skipped; a
piece without `=` has the empty value). -/
def formDecode (q : List Char) : List (List Char × List Char) :=
  ((splitAll '&' q).filter (fun p => p ≠ [])).map
    (fun piece =>
      match splitFirst '=' piece with
      | (k, some v) => (formDecodeStr k, formDecodeStr v)
      | (k, none) => (formDecodeStr k, []))

/-- Serialize name/value pairs as `URLSearchParams` does after a mutation. -/
def formSerialize (ps : List (List Char × List Char)) : List Char :=
  joinSep ("&".data)
    (ps.map (fun kv => formEncodeStr kv.1 ++ '=' :: formEncodeStr kv.2))

/-- `URLSearchParams.set`: update the first pair with the given name and drop
the other pairs with that name; append when the name is absent. -/
def setParam (n v : List Char) : List (List Char × List Char) → List (List Char × List Char)
  | [] => [(n, v)]
  | kv :: rest =>
    if kv.1 = n then (n, v) :: rest.filter (fun kv' => kv'.1 ≠ n)
    else kv :: setParam n v rest

/-- `URLSearchParams.get`: decoded value of the first pair with the given
name. -/
def getParam (ps : List (List Char × List Char)) (n : List Char) : Option (List Char) :=
  (ps.find? (fun kv => kv.1 = n)).map (fun kv => kv.2)

/-- The components of `new URL(origin + path)` that the editors read:
`pathname` (percent-encoded), the raw query (without `?`; `[]` both for an
absent and for an empty query, so that `url.search` is `""` in either case)
and `hash` (with its `#`, or `[]`). -/
structure UrlParts where
  pathname : List Char
  rawQuery : List Char
  hash : List Char
deriving DecidableEq

/-- Parse a recorded `path` string (see the section comment). -/
def parseUrlPath (p : List Char) : UrlParts :=
  match splitFirst '#' p with
  | (preHash, fragPart) =>
    match splitFirst '?' preHash with
    | (rawPath, queryPart) =>
      { pathname := pathEncode rawPath
        rawQuery := match queryPart with | some q => q | none => []
        hash := match fragPart with | some f => '#' :: f | none => [] }

/-- `url.search`: `?` followed by the query, or empty. -/
def querySuffix (q : List Char) : List Char :=
  if q = [] then [] else '?' :: q

/- ### Exchange field editors (src/unnamed/part_001)

The source edits the definition in place; the embedding passes the updated
definition explicitly.  Editors that can throw (a `JSON.parse` failure)
return `Except`. -/

/-- An entry is touched when JS `value.toString().includes(credential)`. -/
def headerMatches (credential : List Char) (kv : List Char × HVal) : Bool :=
  containsStr (hvalToString kv.2) credential

/-- JS `definition.reqheaders[k] = v` on an existing object: update in place
(update every entry with that key - with the JS no-duplicate-keys invariant
there is exactly one); append when absent. -/
def setHeader (hs : Headers) (k : List Char) (v : HVal) : Headers :=
  if hs.any (fun kv => kv.1 = k) then
    hs.map (fun kv => if kv.1 = k then (k, v) else kv)
  else hs ++ [(k, v)]

/-- First value under an exactly matching header name, through the optional
`reqheaders` (`definition.reqheaders?.[name]`). -/
def lookupHeader (oh : Option Headers) (k : List Char) : Option HVal :=
  oh.bind (fun hs => (hs.find? (fun kv => kv.1 = k)).map (fun kv => kv.2))

/-- Embeds `replaceCredentialInHeaders` (part_001:53-75): collect the entries
whose stringified value contains the credential, then assign each the
redacted stringified value (an array value is thereby collapsed to its
joined string). -/
def replaceCredentialInHeaders (d : RecordingDefinition) (credential placeholder : List Char) :
    RecordingDefinition :=
  match d.reqheaders with
  | none => d
  | some hs =>
    let touched := hs.filter (headerMatches credential)
    let hs' := touched.foldl
      (fun acc kv =>
        setHeader acc kv.1 (HVal.str (replaceCredential (hvalToString kv.2) credential placeholder)))
      hs
    { d with reqheaders := some hs' }

/-- Embeds `replaceCredentialInRawHeaders` (part_001:77-95): redact every raw
header element independently. -/
def replaceCredentialInRawHeaders (d : RecordingDefinition) (credential placeholder : List Char) :
    RecordingDefinition :=
  match d.rawHeaders with
  | none => d
  | some raw =>
    { d with rawHeaders := some (raw.map (fun h => replaceCredential h credential placeholder)) }

/-- Embeds `replaceCredentialInBody` (part_001:97-118): when the body is
defined and not the empty string, serialize it; when the text contains the
credential, redact the text and re-parse (a parse failure is a thrown
`SyntaxError`). -/
def replaceCredentialInBody (d : RecordingDefinition) (credential placeholder : List Char) :
    Except RedactError RecordingDefinition :=
  match d.body with
  | none => .ok d
  | some (Json.str []) => .ok d
  | some b =>
      if containsStr (jsonStringify b) credential then
        match jsonParse (replaceCredential (jsonStringify b) credential placeholder) with
        | some b' => .ok { d with body := some b' }
        | none => .error .jsonSyntaxErr
      else .ok d

/-- Embeds `replaceCredentialInResponse` (part_001:120-139): when the
response is truthy (`if (definition.response)`), serialize, redact the text
unconditionally and re-parse. -/
def replaceCredentialInResponse (d : RecordingDefinition) (credential placeholder : List Char) :
    Except RedactError RecordingDefinition :=
  match d.response with
  | none => .ok d
  | some r =>
    if jsTruthyJson r then
      match jsonParse (replaceCredential (jsonStringify r) credential placeholder) with
      | some r' => .ok { d with response := some r' }
      | none => .error .jsonSyntaxErr
    else .ok d

/-- Embeds `replaceCredentialInScope` (part_001:141-156). -/
def replaceCredentialInScope (d : RecordingDefinition) (credential placeholder : List Char) :
    RecordingDefinition :=
  if containsStr d.scope credential then
    { d with scope := replaceCredential d.scope credential placeholder }
  else d

/-- Embeds `replaceCredentialInQuery` (part_001:158-186): iterate the decoded
query pairs, redact each value containing the credential, and reassemble
`path` from `pathname + search + hash`.  When no value matched, no
`searchParams.set` call occurs and the query keeps its raw parsed form;
when one did, the whole query is re-serialized by `URLSearchParams`
(form-urlencoded).  The iterate-while-setting loop coincides with a map for
the JS-invariant case of distinct query names (modelling boundary). -/
def replaceCredentialInQuery (d : RecordingDefinition) (baseUrl credential placeholder : List Char) :
    RecordingDefinition :=
  let u := parseUrlPath d.path
  let entries := formDecode u.rawQuery
  let search' :=
    if entries.any (fun kv => containsStr kv.2 credential) then
      formSerialize (entries.map
        (fun kv =>
          if containsStr kv.2 credential then
            (kv.1, replaceCredential kv.2 credential placeholder)
          else kv))
    else u.rawQuery
  { d with path := u.pathname ++ querySuffix search' ++ u.hash }

/-- Embeds `replaceCredentialInPath` (part_001:188-210): redact the (encoded)
pathname when it contains the credential - assigning `url.pathname` re-runs
the path encoder - and reassemble `path` from `pathname + search + hash`
unconditionally. -/
def replaceCredentialInPath (d : RecordingDefinition) (baseUrl credential placeholder : List Char) :
    RecordingDefinition :=
  let u := parseUrlPath d.path
  let pn :=
    if containsStr u.pathname credential then
      pathEncode (replaceCredential u.pathname credential placeholder)
    else u.pathname
  { d with path := pn ++ querySuffix u.rawQuery ++ u.hash }

/- ### Scheme redactor (src/unnamed/part_001:212-391) -/

/-- `ApiKeyPlacement` from the AST package. -/
inductive ApiKeyPlacement where
  | header
  | body
  | path
  | query
deriving DecidableEq

/-- `HttpScheme` from the AST package. -/
inductive HttpScheme where
  | basic
  | bearer
  | digest
deriving DecidableEq

/-- The discriminated union of security schemes the redactor dispatches on:
API key with a placement and an optional header/query/field name, or an HTTP
scheme. -/
inductive SecurityScheme where
  | apikey (placement : ApiKeyPlacement) (name : Option (List Char))
  | http (scheme : HttpScheme)
deriving DecidableEq

/-- The `Authorization` header name (part_001:31). -/
def authHeaderName : List Char := "Authorization".data

/-- The name-directed first half of `replaceApiKeyInHeader` (part_001:218-233):
when the scheme has a name and a header with exactly that name exists, assign
it the redacted stringified value - a substring replacement of the credential
inside the value, not a wholesale overwrite with the placeholder. -/
def replaceApiKeyNameStep (d : RecordingDefinition) (name : Option (List Char))
    (credential placeholder : List Char) : RecordingDefinition :=
  match name with
  | none => d
  | some n =>
    match lookupHeader d.reqheaders n with
    | none => d
    | some v =>
      { d with reqheaders :=
          (d.reqheaders.map
            (fun hs =>
              setHeader hs n
                (HVal.str (replaceCredential (hvalToString v) credential placeholder)))) }

/-- Embeds `replaceApiKeyInHeader` (part_001:212-240): the name-directed
substitution above, then the generic headers editor. -/
def replaceApiKeyInHeader (d : RecordingDefinition) (name : Option (List Char))
    (credential placeholder : List Char) : RecordingDefinition :=
  replaceCredentialInHeaders (replaceApiKeyNameStep d name credential placeholder)
    credential placeholder

/-- Embeds `replaceApiKeyInBody` (part_001:242-252): delegates to the body
editor. -/
def replaceApiKeyInBody (d : RecordingDefinition) (credential placeholder : List Char) :
    Except RedactError RecordingDefinition :=
  replaceCredentialInBody d credential placeholder

/-- Embeds `replaceApiKeyInPath` (part_001:254-266): delegates to the path
editor. -/
def replaceApiKeyInPath (d : RecordingDefinition) (baseUrl credential placeholder : List Char) :
    RecordingDefinition :=
  replaceCredentialInPath d baseUrl credential placeholder

/-- Embeds `replaceApiKeyInQuery` (part_001:268-299): when the scheme has a
name, the query has that parameter and its (decoded) value contains the
credential, set the parameter to the placeholder outright and reassemble
`path`; then run the generic query editor on the result. -/
def replaceApiKeyInQuery (d : RecordingDefinition) (name : Option (List Char))
    (baseUrl credential placeholder : List Char) : RecordingDefinition :=
  let u := parseUrlPath d.path
  let entries := formDecode u.rawQuery
  let d₁ :=
    match name with
    | none => d
    | some n =>
      match getParam entries n with
      | some qv =>
        if containsStr qv credential then
          { d with path :=
              u.pathname ++ querySuffix (formSerialize (setParam n placeholder entries)) ++ u.hash }
        else d
      | none => d
  replaceCredentialInQuery d₁ baseUrl credential placeholder

/-- Embeds `replaceApiKey` (part_001:301-325): dispatch on the placement.
HEADER additionally runs the raw-headers editor. -/
def replaceApiKey (d : RecordingDefinition) (placement : ApiKeyPlacement)
    (name : Option (List Char)) (baseUrl credential placeholder : List Char) :
    Except RedactError RecordingDefinition :=
  match placement with
  | .header =>
    .ok (replaceCredentialInRawHeaders
      (replaceApiKeyInHeader d name credential placeholder) credential placeholder)
  | .body => replaceApiKeyInBody d credential placeholder
  | .path => .ok (replaceApiKeyInPath d baseUrl credential placeholder)
  | .query => .ok (replaceApiKeyInQuery d name baseUrl credential placeholder)

/-- Embeds `replaceBasicAuth` (part_001:327-336): when an `Authorization`
header exists, overwrite it with `Basic ` + placeholder, with no look at the
credential. -/
def replaceBasicAuth (d : RecordingDefinition) (placeholder : List Char) :
    RecordingDefinition :=
  match lookupHeader d.reqheaders authHeaderName with
  | none => d
  | some _ =>
    { d with reqheaders :=
        (d.reqheaders.map
          (fun hs => setHeader hs authHeaderName (HVal.str ("Basic ".data ++ placeholder)))) }

/-- Embeds `replaceBearerAuth` (part_001:338-347). -/
def replaceBearerAuth (d : RecordingDefinition) (placeholder : List Char) :
    RecordingDefinition :=
  match lookupHeader d.reqheaders authHeaderName with
  | none => d
  | some _ =>
    { d with reqheaders :=
        (d.reqheaders.map
          (fun hs => setHeader hs authHeaderName (HVal.str ("Bearer ".data ++ placeholder)))) }

/-- The message of the Digest rejection (part_001:387). -/
def digestMsg : List Char := "Digest auth not implemented".data

/-- Embeds `replaceCredentialInDefinition` (part_001:349-391): dispatch on the
scheme (Digest throws `UnexpectedError` before any editor of this function
runs), then always run the response editor on the result. -/
def replaceCredentialInDefinition (d : RecordingDefinition) (scheme : SecurityScheme)
    (baseUrl credential placeholder : List Char) : Except RedactError RecordingDefinition :=
  (match scheme with
    | .apikey placement name => replaceApiKey d placement name baseUrl credential placeholder
    | .http .basic =>
      .ok (replaceCredentialInRawHeaders (replaceBasicAuth d placeholder) credential placeholder)
    | .http .bearer =>
      .ok (replaceCredentialInRawHeaders (replaceBearerAuth d placeholder) credential placeholder)
    | .http .digest => .error (.unexpected digestMsg)).bind
    (fun d₁ => replaceCredentialInResponse d₁ credential placeholder)

/-- Embeds `replaceParameterInDefinition` (part_001:393-418): run every field
editor unconditionally, in source order (headers, raw headers, body,
response, scope, path, query). -/
def replaceParameterInDefinition (d : RecordingDefinition)
    (baseUrl credential placeholder : List Char) : Except RedactError RecordingDefinition :=
  let d₁ := replaceCredentialInRawHeaders
    (replaceCredentialInHeaders d credential placeholder) credential placeholder
  (replaceCredentialInBody d₁ credential placeholder).bind
    (fun d₂ =>
      (replaceCredentialInResponse d₂ credential placeholder).map
        (fun d₃ =>
          replaceCredentialInQuery
            (replaceCredentialInPath (replaceCredentialInScope d₃ credential placeholder)
              baseUrl credential placeholder)
            baseUrl credential placeholder))

/-- Modelled from the spec: the restoration direction of the Scheme
Redactor / Restorer (spec section 4.3, "wherever a placeholder tagged with
this scheme's id is found, substitute the real secret value") is not part of
the sources under review (only its tests and callers are).  Restoration
substitutes the secret for the placeholder literally in every field the
redactor touches: scope, path, header values (each array element
separately), raw header lines, and the JSON text of body and response (kept
unchanged when the substituted text no longer parses). -/
def restoreCredentialInDefinition (d : RecordingDefinition)
    (credential placeholder : List Char) : RecordingDefinition :=
  { scope := replaceAll placeholder credential d.scope
    path := replaceAll placeholder credential d.path
    reqheaders :=
      (d.reqheaders.map
        (fun hs =>
          hs.map
            (fun kv =>
              (kv.1,
                match kv.2 with
                | .str s => HVal.str (replaceAll placeholder credential s)
                | .arr xs => HVal.arr (xs.map (replaceAll placeholder credential))))))
    rawHeaders := (d.rawHeaders.map (fun raw => raw.map (replaceAll placeholder credential)))
    body :=
      (d.body.map
        (fun b =>
          match jsonParse (replaceAll placeholder credential (jsonStringify b)) with
          | some b' => b'
          | none => b))
    response :=
      (d.response.map
        (fun r =>
          match jsonParse (replaceAll placeholder credential (jsonStringify r)) with
          | some r' => r'
          | none => r)) }

/-- Follows the words of claim C6 and of spec section 4.2 (the Response
editor applied "unconditionally when `response` is defined"), for comparison
with the source's truthiness-gated `replaceCredentialInResponse`. -/
def specResponseEditor (d : RecordingDefinition) (credential placeholder : List Char) :
    Except RedactError RecordingDefinition :=
  match d.response with
  | none => .ok d
  | some r =>
    match jsonParse (replaceCredential (jsonStringify r) credential placeholder) with
    | some r' => .ok { d with response := some r' }
    | none => .error .jsonSyntaxErr

/- ### Concrete fixtures used by the counterexample and witness theorems -/

/-- A placeholder used by the concrete fixtures. -/
def phL : List Char := "PH".data

/-- A base URL used by the concrete fixtures (only its origin matters, and
the origin never reaches an editor's output). -/
def baseL : List Char := "https://localhost".data

/-- C1/C2 credential with regex metacharacters: `a.b` (a literal dot). -/
def credDot : List Char := "a.b".data

/-- C2 fixture: the secret `a.b` occurs (literally) in exactly one request
header, whose value also contains the non-literal regex match `axb`. -/
def exC2 : RecordingDefinition :=
  { scope := "https://localhost".data
    path := "/".data
    reqheaders := some [("X-Secret".data, HVal.str ("a.b and axb".data))]
    rawHeaders := none
    body := none
    response := none }

/-- C3 fixture: the scheme-named header's value contains the secret as a
proper substring. -/
def exC3 : RecordingDefinition :=
  { scope := "https://localhost".data
    path := "/".data
    reqheaders := some [("X-Key".data, HVal.str ("pre secret suf".data))]
    rawHeaders := none
    body := none
    response := none }

/-- C4 fixture: an exchange with an `Authorization` header. -/
def exC4 : RecordingDefinition :=
  { scope := "https://localhost".data
    path := "/".data
    reqheaders := some [(authHeaderName, HVal.str ("xyz".data))]
    rawHeaders := none
    body := none
    response := none }

/-- C5 fixture: one array-valued header. -/
def exC5 : RecordingDefinition :=
  { scope := "https://localhost".data
    path := "/".data
    reqheaders := some [("H".data, HVal.arr ["a".data, "b".data])]
    rawHeaders := none
    body := none
    response := none }

/-- C6 fixture: a defined but falsy response (the number `0`). -/
def exC6 : RecordingDefinition :=
  { scope := "https://localhost".data
    path := "/".data
    reqheaders := none
    rawHeaders := none
    body := none
    response := some (Json.num 0) }

/-- C9 fixture: a path with a space, which URL normalization percent-encodes
even when the credential occurs nowhere. -/
def exC9 : RecordingDefinition :=
  { scope := "https://localhost".data
    path := "/a b".data
    reqheaders := none
    rawHeaders := none
    body := none
    response := none }

/-- C10 witness fixture: a body whose JSON text does not contain the
credential. -/
def exC10 : RecordingDefinition :=
  { scope := "https://localhost".data
    path := "/".data
    reqheaders := none
    rawHeaders := none
    body := some (Json.obj [("k".data, Json.str ("v".data))])
    response := none }

/-- C1 credential `a.b+c`: as a regex, `+` quantifies the `b`, so the literal
text `a.b+c` is not matched. -/
def credMeta : List Char := "a.b+c".data

/-- What the code produces for `exC2` (the regex also replaced `axb`). -/
def exC2red : RecordingDefinition :=
  { exC2 with reqheaders := some [("X-Secret".data, HVal.str ("PH and PH".data))] }

/-- What the code produces for `exC3` (a substring replacement inside the
named header's value). -/
def exC3red : RecordingDefinition :=
  { exC3 with reqheaders := some [("X-Key".data, HVal.str ("pre PH suf".data))] }

/-- What the code produces for `exC4` under Basic auth with the empty
secret: the `Authorization` header is overwritten anyway. -/
def exC4red : RecordingDefinition :=
  { exC4 with reqheaders := some [(authHeaderName, HVal.str ("Basic PH".data))] }

/-- What the claim-following response editor produces for `exC6`. -/
def exC6spec : RecordingDefinition :=
  { exC6 with response := some (Json.num 9) }

/-- C6 witness fixture: a truthy response. -/
def exW6 : RecordingDefinition :=
  { scope := "https://localhost".data
    path := "/".data
    reqheaders := none
    rawHeaders := none
    body := none
    response := some (Json.str ("abc".data)) }

/-- The redaction of `exW6` with secret `b`, placeholder `X`. -/
def exW6red : RecordingDefinition :=
  { exW6 with response := some (Json.str ("aXc".data)) }

/- ### Helper lemmas about the headers editor

The source's headers editor filters the entries first and then assigns them
in a loop; on a JS object (no duplicate keys) this is the same as a single
pointwise pass, which the claim statements use. -/

/-- The pointwise form of one headers-editor step. -/
def redactHeaderEntry (credential placeholder : List Char) (kv : List Char × HVal) :
    List Char × HVal :=
  if headerMatches credential kv then
    (kv.1, HVal.str (replaceCredential (hvalToString kv.2) credential placeholder))
  else kv

theorem replaceCredential_empty (payload placeholder : List Char) :
    replaceCredential payload [] placeholder = payload := by
  simp [replaceCredential]

theorem map_congr_mem {α β : Type} {l : List α} {f g : α → β}
    (h : ∀ a ∈ l, f a = g a) : l.map f = l.map g := by
  induction l with
  | nil => rfl
  | cons x t ih =>
    simp only [List.map_cons]
    exact congrArg₂ _ (h x (List.mem_cons_self x t)) (ih fun a ha => h a (List.mem_cons_of_mem x ha))

theorem key_inj {hs : Headers} (hnd : keysNodup hs) :
    ∀ kv ∈ hs, ∀ kv' ∈ hs, kv.1 = kv'.1 → kv = kv' := by
  intro kv hkv kv' hkv' hk
  exact List.inj_on_of_nodup_map hnd hkv hkv' hk

theorem setHeader_map {hs : Headers} {g : List Char × HVal → List Char × HVal}
    (hg : ∀ kv, (g kv).1 = kv.1) {k : List Char} {v₀ : HVal} (hmem : (k, v₀) ∈ hs)
    (w : HVal) :
    setHeader (hs.map g) k w = hs.map (fun kv => if kv.1 = k then (k, w) else g kv) := by
  have hany : (hs.map g).any (fun kv => kv.1 = k) = true := by
    refine List.any_eq_true.mpr ⟨g (k, v₀), List.mem_map_of_mem g hmem, ?_⟩
    simp [hg]
  simp only [setHeader, hany, if_true, List.map_map]
  refine map_congr_mem ?_
  intro kv _
  simp [Function.comp, hg]

theorem foldl_setHeader_eq_map (f : List Char × HVal → HVal) :
    ∀ (L : Headers) (hs : Headers) (g : List Char × HVal → List Char × HVal),
      keysNodup hs → (∀ kv ∈ L, kv ∈ hs) → (∀ kv, (g kv).1 = kv.1) →
      L.foldl (fun acc kv => setHeader acc kv.1 (f kv)) (hs.map g)
        = hs.map (fun kv => if kv ∈ L then (kv.1, f kv) else g kv) := by
  intro L
  induction L with
  | nil =>
    intro hs g _ _ _
    simp
  | cons kv₀ L' ih =>
    intro hs g hnd hsub hg
    have hmem₀ : kv₀ ∈ hs := hsub kv₀ (List.mem_cons_self kv₀ L')
    have hstep :
        setHeader (hs.map g) kv₀.1 (f kv₀)
          = hs.map (fun kv => if kv.1 = kv₀.1 then (kv₀.1, f kv₀) else g kv) := by
      exact @setHeader_map hs g hg kv₀.1 kv₀.2 hmem₀ (f kv₀)
    have hg' : ∀ kv, ((fun kv => if kv.1 = kv₀.1 then (kv₀.1, f kv₀) else g kv) kv).1 = kv.1 := by
      intro kv
      by_cases h : kv.1 = kv₀.1 <;> simp [h, hg]
    calc
      (kv₀ :: L').foldl (fun acc kv => setHeader acc kv.1 (f kv)) (hs.map g)
          = L'.foldl (fun acc kv => setHeader acc kv.1 (f kv))
              (hs.map (fun kv => if kv.1 = kv₀.1 then (kv₀.1, f kv₀) else g kv)) := by
            simp only [List.foldl_cons, hstep]
      _ = hs.map (fun kv =>
            if kv ∈ L' then (kv.1, f kv)
            else if kv.1 = kv₀.1 then (kv₀.1, f kv₀) else g kv) := by
            exact ih hs _ hnd (fun kv hkv => hsub kv (List.mem_cons_of_mem kv₀ hkv)) hg'
      _ = hs.map (fun kv => if kv ∈ kv₀ :: L' then (kv.1, f kv) else g kv) := by
            refine map_congr_mem ?_
            intro kv hkv
            by_cases hL : kv ∈ L'
            · simp [hL, List.mem_cons_of_mem kv₀ hL]
            · by_cases hk : kv.1 = kv₀.1
              · have : kv = kv₀ := key_inj hnd kv hkv kv₀ hmem₀ hk
                subst this
                simp [hL, hk]
              · have hne : kv ≠ kv₀ := fun h => hk (congrArg Prod.fst h)
                simp [hL, hk, hne]

/-- The filter-then-assign loop of the headers editor is the pointwise pass,
on any header map with JS-object keys. -/
theorem replaceCredentialInHeaders_eq_map (d : RecordingDefinition) {hs : Headers}
    (credential placeholder : List Char) (hd : d.reqheaders = some hs)
    (hnd : keysNodup hs) :
    replaceCredentialInHeaders d credential placeholder
      = { d with reqheaders := some (hs.map (redactHeaderEntry credential placeholder)) } := by
  have hgen := foldl_setHeader_eq_map
    (fun kv => HVal.str (replaceCredential (hvalToString kv.2) credential placeholder))
    (hs.filter (headerMatches credential)) hs id hnd
    (fun kv hkv => List.mem_of_mem_filter hkv) (fun kv => rfl)
  simp only [List.map_id, id_eq] at hgen
  have hfold :
      (hs.filter (headerMatches credential)).foldl
        (fun acc kv =>
          setHeader acc kv.1 (HVal.str (replaceCredential (hvalToString kv.2) credential placeholder)))
        hs
        = hs.map (redactHeaderEntry credential placeholder) := by
    refine hgen.trans ?_
    refine map_congr_mem ?_
    intro kv hkv
    by_cases hm : headerMatches credential kv = true
    · have hin : kv ∈ hs.filter (headerMatches credential) := List.mem_filter.mpr ⟨hkv, hm⟩
      simp [redactHeaderEntry, hin, hm]
    · have hout : kv ∉ hs.filter (headerMatches credential) := by
        intro hc
        exact hm (List.mem_filter.mp hc).2
      simp [redactHeaderEntry, hout, hm]
  simp only [replaceCredentialInHeaders, hd]
  rw [hfold]

/- ### Frame lemmas: which fields each editor leaves alone -/

theorem headers_response (d : RecordingDefinition) (c p : List Char) :
    (replaceCredentialInHeaders d c p).response = d.response := by
  cases hd : d.reqheaders <;> simp [replaceCredentialInHeaders, hd]

theorem rawHeaders_response (d : RecordingDefinition) (c p : List Char) :
    (replaceCredentialInRawHeaders d c p).response = d.response := by
  cases hd : d.rawHeaders <;> simp [replaceCredentialInRawHeaders, hd]

theorem scope_response (d : RecordingDefinition) (c p : List Char) :
    (replaceCredentialInScope d c p).response = d.response := by
  unfold replaceCredentialInScope
  split <;> rfl

theorem query_response (d : RecordingDefinition) (b c p : List Char) :
    (replaceCredentialInQuery d b c p).response = d.response := rfl

theorem path_response (d : RecordingDefinition) (b c p : List Char) :
    (replaceCredentialInPath d b c p).response = d.response := rfl

theorem apiKeyNameStep_response (d : RecordingDefinition) (nm : Option (List Char))
    (c p : List Char) :
    (replaceApiKeyNameStep d nm c p).response = d.response := by
  unfold replaceApiKeyNameStep
  cases nm with
  | none => rfl
  | some n => cases hv : lookupHeader d.reqheaders n <;> simp [hv]

theorem apiKeyInHeader_response (d : RecordingDefinition) (nm : Option (List Char))
    (c p : List Char) :
    (replaceApiKeyInHeader d nm c p).response = d.response := by
  unfold replaceApiKeyInHeader
  rw [headers_response, apiKeyNameStep_response]

theorem apiKeyInQuery_response (d : RecordingDefinition) (nm : Option (List Char))
    (b c p : List Char) :
    (replaceApiKeyInQuery d nm b c p).response = d.response := by
  unfold replaceApiKeyInQuery
  rw [query_response]
  cases nm with
  | none => rfl
  | some n =>
    cases hv : getParam (formDecode (parseUrlPath d.path).rawQuery) n with
    | none => simp [hv]
    | some qv => by_cases hc : containsStr qv c = true <;> simp [hv, hc]

theorem basicAuth_response (d : RecordingDefinition) (p : List Char) :
    (replaceBasicAuth d p).response = d.response := by
  unfold replaceBasicAuth
  cases hv : lookupHeader d.reqheaders authHeaderName <;> simp [hv]

theorem bearerAuth_response (d : RecordingDefinition) (p : List Char) :
    (replaceBearerAuth d p).response = d.response := by
  unfold replaceBearerAuth
  cases hv : lookupHeader d.reqheaders authHeaderName <;> simp [hv]

theorem body_ok_response (d d' : RecordingDefinition) (c p : List Char)
    (h : replaceCredentialInBody d c p = Except.ok d') : d'.response = d.response := by
  unfold replaceCredentialInBody at h
  split at h
  · cases h
    rfl
  · cases h
    rfl
  · split at h
    · split at h
      · cases h
        rfl
      · cases h
    · cases h
      rfl

/- ### More helper lemmas -/

theorem containsStr_nil (s : List Char) : containsStr s [] = true := by
  cases s <;> rfl

theorem redactHeaderEntry_key (c p : List Char) (kv : List Char × HVal) :
    (redactHeaderEntry c p kv).1 = kv.1 := by
  unfold redactHeaderEntry
  split <;> rfl

theorem setHeader_self {hs : Headers} {k : List Char} {v : HVal}
    (hnd : keysNodup hs) (hmem : (k, v) ∈ hs) : setHeader hs k v = hs := by
  have hany : hs.any (fun kv => kv.1 = k) = true :=
    List.any_eq_true.mpr ⟨(k, v), hmem, by simp⟩
  simp only [setHeader, hany, if_true]
  refine (map_congr_mem ?_).trans (List.map_id hs)
  intro kv hkv
  by_cases hk : kv.1 = k
  · have hkvv : kv = (k, v) := key_inj hnd kv hkv (k, v) hmem (by simp [hk])
    simp [hkvv]
  · simp [hk]

theorem lookupHeader_eq_find (hs : Headers) (k : List Char) :
    lookupHeader (some hs) k = (hs.find? (fun kv => kv.1 = k)).map (fun kv => kv.2) := rfl

theorem lookupHeader_cons_pos {kv₀ : List Char × HVal} {t : Headers} {k : List Char}
    (h : kv₀.1 = k) : lookupHeader (some (kv₀ :: t)) k = some kv₀.2 := by
  rw [lookupHeader_eq_find, List.find?_cons_of_pos _ (by simp [h])]
  rfl

theorem lookupHeader_cons_neg {kv₀ : List Char × HVal} {t : Headers} {k : List Char}
    (h : ¬kv₀.1 = k) : lookupHeader (some (kv₀ :: t)) k = lookupHeader (some t) k := by
  rw [lookupHeader_eq_find, List.find?_cons_of_neg _ (by simp [h])]
  rfl

theorem mem_of_lookup {hs : Headers} {n : List Char} {v : HVal}
    (h : lookupHeader (some hs) n = some v) : (n, v) ∈ hs := by
  rw [lookupHeader_eq_find] at h
  cases hfind : hs.find? (fun kv => kv.1 = n) with
  | none => rw [hfind] at h; cases h
  | some kv =>
    rw [hfind] at h
    have hm := List.mem_of_find?_eq_some hfind
    have hp := List.find?_some hfind
    have hk : kv.1 = n := by simpa using hp
    have hv : kv.2 = v := by simpa using h
    have hkvv : (n, v) = kv := by
      cases kv
      simp_all
    rw [hkvv]
    exact hm

theorem lookup_map {hs : Headers} (hnd : keysNodup hs) {k : List Char} {v : HVal}
    (hmem : (k, v) ∈ hs) {g : List Char × HVal → List Char × HVal}
    (hg : ∀ kv, (g kv).1 = kv.1) :
    lookupHeader (some (hs.map g)) k = some (g (k, v)).2 := by
  induction hs with
  | nil => cases hmem
  | cons kv₀ t ih =>
    have hnd' : keysNodup t := by
      unfold keysNodup at hnd ⊢
      rw [List.map_cons] at hnd
      exact hnd.of_cons
    by_cases hk : kv₀.1 = k
    · have hkvv : (k, v) = kv₀ :=
        key_inj hnd (k, v) hmem kv₀ (List.mem_cons_self kv₀ t) (by simp [hk])
      rw [List.map_cons, lookupHeader_cons_pos (by rw [hg]; exact hk), ← hkvv]
    · have hmem' : (k, v) ∈ t := by
        cases List.mem_cons.mp hmem with
        | inl h => exact absurd (congrArg Prod.fst h).symm hk
        | inr h => exact h
      rw [List.map_cons, lookupHeader_cons_neg (by rw [hg]; exact hk)]
      exact ih hnd' hmem' 

theorem eta_reqheaders (d : RecordingDefinition) {hs : Headers}
    (hh : d.reqheaders = some hs) :
    ({ d with reqheaders := some hs } : RecordingDefinition) = d := by
  cases d
  simp_all

theorem rawHeaders_empty_cred (d : RecordingDefinition) (p : List Char) :
    replaceCredentialInRawHeaders d [] p = d := by
  cases hd : d.rawHeaders with
  | none => simp [replaceCredentialInRawHeaders, hd]
  | some raw =>
    have hmap : raw.map (fun h => replaceCredential h [] p) = raw := by
      refine (map_congr_mem ?_).trans (List.map_id raw)
      intro a _
      exact replaceCredential_empty a p
    simp only [replaceCredentialInRawHeaders, hd, hmap]
    cases d
    simp_all

theorem headers_empty_cred (d : RecordingDefinition) (p : List Char) {hs : Headers}
    (hh : d.reqheaders = some hs) (hnd : keysNodup hs)
    (hstr : ∀ kv ∈ hs, ∃ s, kv.2 = HVal.str s) :
    replaceCredentialInHeaders d [] p = d := by
  rw [replaceCredentialInHeaders_eq_map d [] p hh hnd]
  have hmap : hs.map (redactHeaderEntry [] p) = hs := by
    refine (map_congr_mem ?_).trans (List.map_id hs)
    intro kv hkv
    obtain ⟨s, hsv⟩ := hstr kv hkv
    cases kv with
    | mk k v =>
      simp only at hsv
      subst hsv
      simp [redactHeaderEntry, headerMatches, containsStr_nil, replaceCredential_empty,
        hvalToString]
  rw [hmap]
  exact eta_reqheaders d hh

theorem except_bind_ok {α β γ : Type} {x : Except γ α} {f : α → Except γ β} {b : β}
    (h : x.bind f = .ok b) : ∃ a, x = .ok a ∧ f a = .ok b := by
  cases x with
  | error e => simp [Except.bind] at h
  | ok a => exact ⟨a, rfl, by simpa [Except.bind] using h⟩

theorem response_editor_char (d₁ d' : RecordingDefinition) (c p : List Char)
    (h : replaceCredentialInResponse d₁ c p = .ok d') :
    d'.response
      = (match d₁.response with
          | none => none
          | some r =>
            if jsTruthyJson r then jsonParse (replaceCredential (jsonStringify r) c p)
            else some r) := by
  unfold replaceCredentialInResponse at h
  cases hr : d₁.response with
  | none =>
    simp only [hr] at h
    cases h
    simp [hr]
  | some r =>
    simp only [hr] at h
    by_cases ht : jsTruthyJson r = true
    · rw [if_pos ht] at h
      cases hp : jsonParse (replaceCredential (jsonStringify r) c p) with
      | some r' =>
        rw [hp] at h
        cases h
        simp [ht, hp]
      | none => rw [hp] at h; cases h
    · rw [if_neg ht] at h
      cases h
      simp [hr, ht]

/- ### The claims -/

/-- C1: the substring redactor is claimed to replace the secret as literal
text only.  The code builds `new RegExp(credential, 'g')` without escaping:
with secret `a.b+c`, a payload equal to the literal secret is matched
nowhere (the `+` quantifies the `b`) and is returned unchanged, while the
payload `axbbc`, which does not contain the literal secret, is replaced
entirely. -/
theorem c1_unescaped_regex :
    containsStr credMeta credMeta = true
    ∧ replaceCredential credMeta credMeta phL = credMeta
    ∧ containsStr ("axbbc".data) credMeta = false
    ∧ replaceCredential ("axbbc".data) credMeta phL = phL := by
  decide

/-- C2: restore-after-redact round trip (restore is spec-modelled, section
4.3).  With secret `a.b` appearing literally in exactly one header field,
the unescaped-regex redaction also rewrites the non-literal match `axb`, so
restoring the placeholder yields `a.b and a.b`, not the original
`a.b and axb`. -/
theorem c2_roundtrip_breaks :
    replaceCredentialInDefinition exC2 (.apikey .header none) baseL credDot phL = .ok exC2red
    ∧ containsStr ("a.b and axb".data) credDot = true
    ∧ restoreCredentialInDefinition exC2red credDot phL ≠ exC2 := by
  refine ⟨rfl, by decide, ?_⟩
  intro h
  exact absurd (congrArg RecordingDefinition.reqheaders h) (by decide)

/-- C7: a Digest HTTP scheme makes the scheme redactor throw
`UnexpectedError('Digest auth not implemented')` immediately - before any
editor of the dispatch (including the response editor) has touched the
exchange - for every exchange and credential. -/
theorem c7_digest_fatal (d : RecordingDefinition) (b c p : List Char) :
    replaceCredentialInDefinition d (.http .digest) b c p
      = .error (RedactError.unexpected digestMsg) := rfl

/-- C9: the query and path editors always reassign `path` from the parsed
URL's `pathname + search + hash`, and a pass that matches nothing can still
change `path` through URL normalization (here `/a b` becomes `/a%20b`
although the secret occurs nowhere in the exchange). -/
theorem c9_path_reassigned :
    (∀ (d : RecordingDefinition) (b c p : List Char), ∃ q,
        (replaceCredentialInQuery d b c p).path
          = (parseUrlPath d.path).pathname ++ querySuffix q ++ (parseUrlPath d.path).hash)
    ∧ (∀ (d : RecordingDefinition) (b c p : List Char), ∃ pn,
        (replaceCredentialInPath d b c p).path
          = pn ++ querySuffix (parseUrlPath d.path).rawQuery ++ (parseUrlPath d.path).hash)
    ∧ containsStr exC9.path ("z".data) = false
    ∧ containsStr exC9.scope ("z".data) = false
    ∧ (replaceCredentialInQuery exC9 baseL ("z".data) phL).path ≠ exC9.path := by
  refine ⟨fun d b c p => ⟨_, rfl⟩, fun d b c p => ⟨_, rfl⟩, by decide, by decide, by decide⟩

/-- C10: the body editor leaves the whole exchange untouched when the body
is undefined, is the empty string, or its JSON text does not contain the
(non-empty) secret - no stringify/parse round trip is applied to it. -/
theorem c10_body_preserved (d : RecordingDefinition) (c p : List Char) (hc : c ≠ [])
    (hb : d.body = none ∨ d.body = some (Json.str [])
        ∨ ∀ bj, d.body = some bj → containsStr (jsonStringify bj) c = false) :
    replaceCredentialInBody d c p = .ok d := by
  rcases hb with h | h | h
  · simp [replaceCredentialInBody, h]
  · simp [replaceCredentialInBody, h]
  · cases hd : d.body with
    | none => simp [replaceCredentialInBody, hd]
    | some bj =>
      have hcf := h bj hd
      cases bj with
      | null => simp [replaceCredentialInBody, hd, hcf]
      | bool x => simp [replaceCredentialInBody, hd, hcf]
      | num x => simp [replaceCredentialInBody, hd, hcf]
      | arr xs => simp [replaceCredentialInBody, hd, hcf]
      | obj fs => simp [replaceCredentialInBody, hd, hcf]
      | str str =>
        cases str with
        | nil => simp [replaceCredentialInBody, hd]
        | cons a t => simp [replaceCredentialInBody, hd, hcf]

/-- C10 witness: the theorem applied to a concrete body free of the secret. -/
theorem c10_witness :
    (("zzz".data : List Char) ≠ [])
    ∧ replaceCredentialInBody exC10 ("zzz".data) phL = .ok exC10 := by
  refine ⟨by decide, c10_body_preserved exC10 _ phL (by decide) (Or.inr (Or.inr ?_))⟩
  intro bj hb
  have hbj : bj = Json.obj [("k".data, Json.str ("v".data))] := by
    have : exC10.body = some (Json.obj [("k".data, Json.str ("v".data))]) := rfl
    rw [this] at hb
    exact (Option.some.inj hb).symm
  rw [hbj]
  decide

/-- C3 counterexample: with scheme name `X-Key` and header value
`pre secret suf`, the code leaves `pre PH suf` - a substring replacement -
whereas the claim prescribes the whole value becoming the placeholder. -/
theorem c3_counterexample :
    replaceCredentialInDefinition exC3 (.apikey .header (some ("X-Key".data))) baseL
        ("secret".data) phL
      = .ok exC3red
    ∧ lookupHeader exC3red.reqheaders ("X-Key".data) = some (HVal.str ("pre PH suf".data))
    ∧ ("pre PH suf".data : List Char) ≠ phL := by
  refine ⟨rfl, rfl, by decide⟩

/-- C3 (amended): for an API-key scheme in HEADER placement whose named
header exists, redaction substring-replaces the credential inside that
header's value (wholesale only when the value equals the credential), and
then runs the generic headers and raw-headers editors over the exchange. -/
theorem c3_amended (d : RecordingDefinition) (n : List Char) (v : HVal)
    (b c p : List Char) (hl : lookupHeader d.reqheaders n = some v) :
    replaceApiKey d .header (some n) b c p
      = .ok (replaceCredentialInRawHeaders
          (replaceCredentialInHeaders
            { d with reqheaders :=
                (d.reqheaders.map
                  (fun hs =>
                    setHeader hs n (HVal.str (replaceCredential (hvalToString v) c p)))) }
            c p)
          c p) := by
  simp only [replaceApiKey, replaceApiKeyInHeader, replaceApiKeyNameStep, hl]

/-- C3 witness: the amended theorem applied at the C3 fixture. -/
theorem c3_witness :
    lookupHeader exC3.reqheaders ("X-Key".data) = some (HVal.str ("pre secret suf".data))
    ∧ replaceApiKey exC3 .header (some ("X-Key".data)) baseL ("secret".data) phL
      = .ok (replaceCredentialInRawHeaders
          (replaceCredentialInHeaders
            { exC3 with reqheaders :=
                (exC3.reqheaders.map
                  (fun hs =>
                    setHeader hs ("X-Key".data)
                      (HVal.str
                        (replaceCredential (hvalToString (HVal.str ("pre secret suf".data)))
                          ("secret".data) phL)))) }
            ("secret".data) phL)
          ("secret".data) phL) :=
  ⟨rfl, c3_amended exC3 ("X-Key".data) (HVal.str ("pre secret suf".data)) baseL
    ("secret".data) phL rfl⟩

/-- C4 counterexample: Basic-auth redaction with the empty secret still
overwrites the `Authorization` header, so the empty-secret pass is not a
no-op on every field. -/
theorem c4_counterexample :
    replaceCredentialInDefinition exC4 (.http .basic) baseL [] phL = .ok exC4red
    ∧ exC4red ≠ exC4 := by
  refine ⟨rfl, ?_⟩
  intro h
  exact absurd (congrArg RecordingDefinition.reqheaders h) (by decide)

/-- C4 (amended): with the empty secret, redaction of an API-key scheme in
HEADER or BODY placement leaves the exchange unchanged, provided the header
values are strings (arrays would be collapsed to joined strings) and body
and response are absent (present ones are JSON-roundtripped in place);
Basic/Bearer schemes overwrite an existing `Authorization` header regardless
of the secret, and PATH/QUERY placements may rewrite `path` by URL
normalization. -/
theorem c4_amended (d : RecordingDefinition) (plc : ApiKeyPlacement)
    (nm : Option (List Char)) (b p : List Char) {hs : Headers}
    (hplc : plc = ApiKeyPlacement.header ∨ plc = ApiKeyPlacement.body)
    (hh : d.reqheaders = some hs) (hnd : keysNodup hs)
    (hstr : ∀ kv ∈ hs, ∃ s, kv.2 = HVal.str s)
    (hbody : d.body = none) (hresp : d.response = none) :
    replaceCredentialInDefinition d (.apikey plc nm) b [] p = .ok d := by
  have hrespStep : replaceCredentialInResponse d [] p = .ok d := by
    simp [replaceCredentialInResponse, hresp]
  rcases hplc with h | h <;> subst h
  · have hname : replaceApiKeyNameStep d nm [] p = d := by
      unfold replaceApiKeyNameStep
      cases nm with
      | none => rfl
      | some n =>
        cases hl : lookupHeader d.reqheaders n with
        | none => simp only [hl]
        | some v =>
          have hmem : (n, v) ∈ hs := by
            rw [hh] at hl
            exact mem_of_lookup hl
          obtain ⟨s, hsv⟩ := hstr (n, v) hmem
          simp only at hsv
          have hv : HVal.str (replaceCredential (hvalToString v) [] p) = v := by
            rw [replaceCredential_empty, hsv]
            rfl
          simp only [hl]
          simp only [hh, Option.map_some', hv]
          rw [setHeader_self hnd hmem]
          exact eta_reqheaders d hh
    have hkey : replaceApiKey d .header nm b [] p = .ok d := by
      unfold replaceApiKey replaceApiKeyInHeader
      rw [hname, headers_empty_cred d p hh hnd hstr, rawHeaders_empty_cred]
    simp only [replaceCredentialInDefinition, hkey, Except.bind]
    exact hrespStep
  · simp only [replaceCredentialInDefinition, replaceApiKey, replaceApiKeyInBody,
      replaceCredentialInBody, hbody, Except.bind]
    exact hrespStep

/-- C4 witness: the amended theorem applied at a concrete string-header
exchange. -/
theorem c4_witness :
    exC3.reqheaders = some [("X-Key".data, HVal.str ("pre secret suf".data))]
    ∧ keysNodup [("X-Key".data, HVal.str ("pre secret suf".data))]
    ∧ exC3.body = none
    ∧ exC3.response = none
    ∧ replaceCredentialInDefinition exC3 (.apikey .header (some ("X-Key".data))) baseL [] phL
      = .ok exC3 := by
  refine ⟨rfl, by decide, rfl, rfl, ?_⟩
  refine c4_amended exC3 .header (some ("X-Key".data)) baseL phL (Or.inl rfl) rfl (by decide)
    ?_ rfl rfl
  intro kv hkv
  have hkvv : kv = ("X-Key".data, HVal.str ("pre secret suf".data)) := by
    simpa using hkv
  exact ⟨"pre secret suf".data, by rw [hkvv]⟩

/-- C5 counterexample: the claim joins array header values with `', '`, but
JS `Array.prototype.toString` joins with `','`.  With secret `a, b` and
header value `['a','b']`, the claim's trigger condition holds (the `', '`
join contains the secret) yet the code leaves the entry untouched, because
the `','` join does not contain it. -/
theorem c5_counterexample :
    containsStr (joinSep (", ".data) ["a".data, "b".data]) ("a, b".data) = true
    ∧ containsStr (hvalToString (HVal.arr ["a".data, "b".data])) ("a, b".data) = false
    ∧ replaceCredentialInHeaders exC5 ("a, b".data) phL = exC5 := by
  refine ⟨by decide, by decide, rfl⟩

/-- C5 (amended): for a non-empty secret, the headers editor rewrites
exactly those entries whose JS-stringified value (arrays joined with `','`,
no space) contains the secret, assigning the substring-redacted joined
string; every other entry - value and name, case included - and every other
field of the exchange is untouched. -/
theorem c5_amended (d : RecordingDefinition) {hs : Headers} (c p : List Char)
    (hc : c ≠ []) (hh : d.reqheaders = some hs) (hnd : keysNodup hs) :
    (replaceCredentialInHeaders d c p).reqheaders
      = some (hs.map (fun kv =>
          if containsStr (hvalToString kv.2) c then
            (kv.1, HVal.str (replaceCredential (hvalToString kv.2) c p))
          else kv))
    ∧ (replaceCredentialInHeaders d c p).scope = d.scope
    ∧ (replaceCredentialInHeaders d c p).path = d.path
    ∧ (replaceCredentialInHeaders d c p).rawHeaders = d.rawHeaders
    ∧ (replaceCredentialInHeaders d c p).body = d.body
    ∧ (replaceCredentialInHeaders d c p).response = d.response := by
  rw [replaceCredentialInHeaders_eq_map d c p hh hnd]
  exact ⟨rfl, rfl, rfl, rfl, rfl, rfl⟩

/-- C5 witness: the amended theorem applied at the C5 fixture with secret
`a`. -/
theorem c5_witness :
    (("a".data : List Char) ≠ [])
    ∧ exC5.reqheaders = some [("H".data, HVal.arr ["a".data, "b".data])]
    ∧ keysNodup [("H".data, HVal.arr ["a".data, "b".data])]
    ∧ (replaceCredentialInHeaders exC5 ("a".data) phL).reqheaders
      = some ([("H".data, HVal.arr ["a".data, "b".data])].map (fun kv =>
          if containsStr (hvalToString kv.2) ("a".data) then
            (kv.1, HVal.str (replaceCredential (hvalToString kv.2) ("a".data) phL))
          else kv)) :=
  ⟨by decide, rfl, by decide,
    (c5_amended exC5 ("a".data) phL (by decide) rfl (by decide)).1⟩

/-- C6 counterexample: a defined but falsy response (the number `0`) is
skipped by the code's truthiness gate, while the claim's definedness-gated
editor (with secret `0`, placeholder `9`) would rewrite it. -/
theorem c6_counterexample :
    replaceCredentialInDefinition exC6 (.apikey .body none) baseL ("0".data) ("9".data)
      = .ok exC6
    ∧ exC6.response = some (Json.num 0)
    ∧ specResponseEditor exC6 ("0".data) ("9".data) = .ok exC6spec
    ∧ exC6spec.response ≠ exC6.response := by
  refine ⟨rfl, rfl, rfl, ?_⟩
  intro h
  have h1 : some (Json.num 9) = some (Json.num 0) := h
  injection h1 with h2
  injection h2 with h3
  exact absurd h3 (by decide)

/-- C6 (amended): for every scheme that does not throw, the response editor
runs after the scheme dispatch and applies the JSON-roundtrip substring
replacement exactly when the response is truthy; falsy responses (absent,
`null`, `false`, `0`, `""`) pass through unchanged. -/
theorem c6_amended (d : RecordingDefinition) (sch : SecurityScheme)
    (b c p : List Char) (d' : RecordingDefinition)
    (h : replaceCredentialInDefinition d sch b c p = .ok d') :
    d'.response
      = (match d.response with
          | none => none
          | some r =>
            if jsTruthyJson r then jsonParse (replaceCredential (jsonStringify r) c p)
            else some r) := by
  unfold replaceCredentialInDefinition at h
  obtain ⟨d₁, hstep, hresp⟩ := except_bind_ok h
  have hpres : d₁.response = d.response := by
    cases sch with
    | apikey plc nm =>
      cases plc with
      | header =>
        simp only [replaceApiKey] at hstep
        cases hstep
        rw [rawHeaders_response, apiKeyInHeader_response]
      | body =>
        exact body_ok_response d d₁ c p (by simpa [replaceApiKey, replaceApiKeyInBody] using hstep)
      | path =>
        simp only [replaceApiKey, replaceApiKeyInPath] at hstep
        cases hstep
        rw [path_response]
      | query =>
        simp only [replaceApiKey] at hstep
        cases hstep
        rw [apiKeyInQuery_response]
    | http hsch =>
      cases hsch with
      | basic =>
        simp only at hstep
        cases hstep
        rw [rawHeaders_response, basicAuth_response]
      | bearer =>
        simp only at hstep
        cases hstep
        rw [rawHeaders_response, bearerAuth_response]
      | digest => cases hstep
  rw [← hpres]
  exact response_editor_char d₁ d' c p hresp

/-- C6 witness: the amended theorem applied at a truthy concrete response. -/
theorem c6_witness :
    replaceCredentialInDefinition exW6 (.apikey .body none) baseL ("b".data) ("X".data)
      = .ok exW6red
    ∧ exW6red.response
      = (match exW6.response with
          | none => none
          | some r =>
            if jsTruthyJson r then
              jsonParse (replaceCredential (jsonStringify r) ("b".data) ("X".data))
            else some r) :=
  ⟨rfl, c6_amended exW6 (.apikey .body none) baseL ("b".data) ("X".data) exW6red rfl⟩

/-- C8: an array-valued header entry whose comma-joined form contains the
secret is overwritten with the single redacted joined string, losing the
array shape; and the comma-joined form of any value contains the empty
secret. -/
theorem c8_array_collapse (d : RecordingDefinition) {hs : Headers}
    (c p k : List Char) (vs : List (List Char))
    (hh : d.reqheaders = some hs) (hnd : keysNodup hs)
    (hmem : (k, HVal.arr vs) ∈ hs)
    (hcon : containsStr (joinSep commaSep vs) c = true) :
    lookupHeader (replaceCredentialInHeaders d c p).reqheaders k
      = some (HVal.str (replaceCredential (joinSep commaSep vs) c p))
    ∧ containsStr (joinSep commaSep vs) [] = true := by
  constructor
  · rw [replaceCredentialInHeaders_eq_map d c p hh hnd]
    have hlk := @lookup_map hs hnd k (HVal.arr vs) hmem (redactHeaderEntry c p) (redactHeaderEntry_key c p)
    show lookupHeader (some (hs.map (redactHeaderEntry c p))) k = _
    rw [hlk]
    simp [redactHeaderEntry, headerMatches, hvalToString, hcon]
  · exact containsStr_nil _

/-- C8 witness: the theorem applied at the C5 fixture with secret `a`. -/
theorem c8_witness :
    exC5.reqheaders = some [("H".data, HVal.arr ["a".data, "b".data])]
    ∧ keysNodup [("H".data, HVal.arr ["a".data, "b".data])]
    ∧ ("H".data, HVal.arr ["a".data, "b".data])
        ∈ [("H".data, HVal.arr ["a".data, "b".data])]
    ∧ containsStr (joinSep commaSep ["a".data, "b".data]) ("a".data) = true
    ∧ lookupHeader (replaceCredentialInHeaders exC5 ("a".data) phL).reqheaders ("H".data)
      = some (HVal.str (replaceCredential (joinSep commaSep ["a".data, "b".data]) ("a".data) phL)) :=
  ⟨rfl, by decide, by decide, by decide,
    (c8_array_collapse exC5 ("a".data) phL ("H".data) ["a".data, "b".data] rfl (by decide)
      (by decide) (by decide)).1⟩

end RecEng

